import Mathlib

/-!
Verification of the `netqueue` package (`src/netqueue/queue.go`): a bridge
between in-process `Message` values and a serialized byte stream, built from
two concurrent workers (`write` and `read`) communicating through bounded
channels.

The embedding is shallow:
* `Message` mirrors the Go struct.
* The gob serialization used by the workers is external library code; it is
  modelled here by a concrete self-describing codec (`encodeMsg`/`decodeMsg`)
  satisfying the wire contract stated in the specification.
* The `write` worker is modelled as the trace of events it performs on a list
  of input messages (the drained contents of its closed input channel), with
  sink failures injected through a list of booleans.
* The `read` worker is modelled as the trace of events it performs on the
  full byte content of its source.
* Channels are modelled by `Chan`: a capacity plus a FIFO buffer, with
  `send` returning `none` when the operation would block.
-/

namespace Netqueue

/-- The size of buffered channels created by `ChannelFromWriter` (Go:
`const ChanSize = 32`). -/
def ChanSize : Nat := 32

/-- Go: `type Message struct { Action string; Args []string }`. -/
structure Message where
  Action : String
  Args : List String
deriving DecidableEq

/-! ### The wire codec

Modelled from the spec: the workers serialize with `encoding/gob` (Go
standard library, not part of this repository). The spec's wire contract
(§6) requires a sequence of self-describing records, each carrying an
`Action` string and an `Args` list of strings, decodable record by record;
any concrete format satisfying this is acceptable. The codec below encodes
each record as a marker byte followed by length-prefixed fields. -/

/-- First byte of every encoded record. -/
def recordMarker : Nat := 103

/-- Encode one string: character count, then the code points. -/
def encodeStr (s : String) : List Nat :=
  s.length :: s.toList.map Char.toNat

/-- Encode a list of strings: element count, then the encoded elements. -/
def encodeStrs (l : List String) : List Nat :=
  l.length :: l.flatMap encodeStr

/-- Encode one `Message` as a self-contained record. -/
def encodeMsg (m : Message) : List Nat :=
  recordMarker :: (encodeStr m.Action ++ encodeStrs m.Args)

/-- Split off the first `n` bytes if there are at least that many. -/
def takeN (n : Nat) (l : List Nat) : Option (List Nat × List Nat) :=
  if n ≤ l.length then some (l.take n, l.drop n) else none

/-- Decode one string, returning it and the remaining bytes. -/
def decodeStr : List Nat → Option (String × List Nat)
  | [] => none
  | n :: rest =>
    match takeN n rest with
    | some (cs, r2) => some (String.mk (cs.map Char.ofNat), r2)
    | none => none

/-- Decode `n` consecutive strings. -/
def decodeStrs : Nat → List Nat → Option (List String × List Nat)
  | 0, bs => some ([], bs)
  | n + 1, bs =>
    match decodeStr bs with
    | some (s, r2) =>
      match decodeStrs n r2 with
      | some (ss, r3) => some (s :: ss, r3)
      | none => none
    | none => none

/-- Decode one record from the front of the byte stream. -/
def decodeMsg : List Nat → Option (Message × List Nat)
  | [] => none
  | b :: bs =>
    if b = recordMarker then
      match decodeStr bs with
      | some (a, r2) =>
        match r2 with
        | [] => none
        | n :: r3 =>
          match decodeStrs n r3 with
          | some (args, r4) => some (⟨a, args⟩, r4)
          | none => none
      | none => none
    else none

theorem takeN_append (l rest : List Nat) :
    takeN l.length (l ++ rest) = some (l, rest) := by
  simp [takeN, List.take_left, List.drop_left]

theorem decodeStr_encodeStr (s : String) (rest : List Nat) :
    decodeStr (encodeStr s ++ rest) = some (s, rest) := by
  have hlen : s.length = (s.toList.map Char.toNat).length := by
    rw [List.length_map, String.toList, String.length_data]
  simp only [encodeStr, List.cons_append, decodeStr]
  rw [hlen, takeN_append]
  cases s with
  | mk data =>
    simp [String.toList, List.map_map, Function.comp_def]

theorem decodeStrs_encode (l : List String) (rest : List Nat) :
    decodeStrs l.length (l.flatMap encodeStr ++ rest) = some (l, rest) := by
  induction l generalizing rest with
  | nil => simp [decodeStrs]
  | cons s t ih =>
    simp only [List.length_cons, List.flatMap_cons, List.append_assoc, decodeStrs,
      decodeStr_encodeStr, ih]

theorem decodeMsg_encodeMsg (m : Message) (rest : List Nat) :
    decodeMsg (encodeMsg m ++ rest) = some (m, rest) := by
  cases m with
  | mk a args =>
    simp only [encodeMsg, encodeStrs, List.cons_append, decodeMsg, if_pos rfl,
      List.append_assoc]
    rw [decodeStr_encodeStr]
    simp only [List.cons_append]
    rw [decodeStrs_encode]
    simp

/-! ### Progress lemmas for the decoder -/

theorem takeN_length {n : Nat} {l a b : List Nat} (h : takeN n l = some (a, b)) :
    b.length ≤ l.length := by
  unfold takeN at h
  split at h
  · cases h
    simp only [List.length_drop]
    omega
  · cases h

theorem decodeStr_length {bs : List Nat} {s : String} {r : List Nat}
    (h : decodeStr bs = some (s, r)) : r.length < bs.length := by
  cases bs with
  | nil => simp [decodeStr] at h
  | cons n rest =>
    simp only [decodeStr] at h
    split at h
    · rename_i cs r2 heq
      cases h
      simpa [List.length_cons] using Nat.lt_succ_of_le (takeN_length heq)
    · cases h

theorem decodeStrs_length {n : Nat} {bs : List Nat} {l : List String} {r : List Nat}
    (h : decodeStrs n bs = some (l, r)) : r.length ≤ bs.length := by
  induction n generalizing bs l r with
  | zero =>
    simp only [decodeStrs] at h
    cases h
    exact le_refl _
  | succ k ih =>
    simp only [decodeStrs] at h
    split at h
    · rename_i s r2 heq
      split at h
      · rename_i ss r3 heq2
        cases h
        exact le_trans (ih heq2) (le_of_lt (decodeStr_length heq))
      · cases h
    · cases h

theorem decodeMsg_length {bs : List Nat} {m : Message} {r : List Nat}
    (h : decodeMsg bs = some (m, r)) : r.length < bs.length := by
  cases bs with
  | nil => simp [decodeMsg] at h
  | cons b rest =>
    simp only [decodeMsg] at h
    split at h
    · split at h
      · rename_i a r2 heq
        cases r2 with
        | nil => cases h
        | cons n r3 =>
          split at h
          · cases h
          · rename_i n2 r32 heq3
            injection heq3 with hn hr
            subst hn
            subst hr
            split at h
            · rename_i args r4 heq2
              cases h
              have h1 := decodeStrs_length heq2
              have h2 := decodeStr_length heq
              simp only [List.length_cons] at h1 h2 ⊢
              omega
            · cases h
      · cases h
    · cases h

/-! ### The decoding worker

Go `read` (`queue.go`): one persistent decoder over the source; loop —
decode one record; on success send the message on `ch`; on `io.EOF` stop
silently; on any other error send it on `errCh` and stop; finally
`close(ch); close(errCh)`.  The trace lists, in program order, the
externally observable actions of the worker on the full content of the
byte source. -/

/-- One observable action of the `read` worker. -/
inductive REvent where
  | deliver (m : Message)
  | emitErr
  | closeMsg
  | closeErr
deriving DecidableEq

/-- The trace of the `read` worker on a byte source holding `bs`.
An empty remainder decodes as clean end-of-stream (`io.EOF`); a nonempty
undecodable remainder is a decode failure. -/
def readTrace (bs : List Nat) : List REvent :=
  match h : decodeMsg bs with
  | some (m, rest) => REvent.deliver m :: readTrace rest
  | none =>
    if bs.isEmpty then [REvent.closeMsg, REvent.closeErr]
    else [REvent.emitErr, REvent.closeMsg, REvent.closeErr]
termination_by bs.length
decreasing_by exact decodeMsg_length h

/-- Messages delivered on the output channel, in order. -/
def deliveredOf : List REvent → List Message
  | [] => []
  | REvent.deliver m :: rest => m :: deliveredOf rest
  | _ :: rest => deliveredOf rest

theorem readTrace_nil : readTrace [] = [REvent.closeMsg, REvent.closeErr] := by
  rw [readTrace]
  split
  · rename_i m r heq
    simp [decodeMsg] at heq
  · rfl

theorem readTrace_some {bs : List Nat} {m : Message} {rest : List Nat}
    (h : decodeMsg bs = some (m, rest)) :
    readTrace bs = REvent.deliver m :: readTrace rest := by
  rw [readTrace]
  split
  · rename_i m2 r2 heq
    rw [h] at heq
    injection heq with heq2
    injection heq2 with h1 h2
    rw [h1, h2]
  · rename_i heq
    rw [h] at heq
    cases heq

theorem readTrace_bad {bs : List Nat} (hne : bs ≠ []) (h : decodeMsg bs = none) :
    readTrace bs = [REvent.emitErr, REvent.closeMsg, REvent.closeErr] := by
  rw [readTrace]
  split
  · rename_i m2 r2 heq
    rw [h] at heq
    cases heq
  · simp [List.isEmpty_iff, hne]

/-! ### The encoding worker

Go `write` (`queue.go`):

    defer close(errCh)
    for msg := range ch {
        encoder := gob.NewEncoder(w)
        if err := encoder.Encode(msg); err != nil {
            errCh <- err
        }
    }

The worker drains the input channel; for each message it creates a fresh
encoder over the sink and encodes.  An encode error (in practice a failure
of the sink's underlying write) is sent on the error channel and the loop
continues.  When the input channel is closed and drained the loop exits
and the deferred close of the error channel runs.  The trace is the list
of observable actions on the drained input `msgs`; sink failures are
injected by the list `fails` (entry `i` true = the write of message `i`
fails, producing no sink output). -/

/-- One observable action of the `write` worker. -/
inductive WEvent where
  | attempt (m : Message)
  | writeOut (bs : List Nat)
  | emitErr (m : Message)
  | closeErr
deriving DecidableEq

/-- The trace of the `write` worker on input messages `msgs` with injected
sink failures `fails` (missing entries mean no failure). -/
def writeTrace : List Bool → List Message → List WEvent
  | _, [] => [WEvent.closeErr]
  | fails, m :: rest =>
    WEvent.attempt m ::
      (if fails.headD false then WEvent.emitErr m
       else WEvent.writeOut (encodeMsg m)) ::
      writeTrace fails.tail rest

/-- Bytes written to the sink, in order. -/
def outputOf : List WEvent → List Nat
  | [] => []
  | WEvent.writeOut bs :: rest => bs ++ outputOf rest
  | _ :: rest => outputOf rest

/-- Messages whose write failed, in the order their errors were queued. -/
def errorsOf : List WEvent → List Message
  | [] => []
  | WEvent.emitErr m :: rest => m :: errorsOf rest
  | _ :: rest => errorsOf rest

/-- Messages removed from the input queue and attempted, in order. -/
def attemptsOf : List WEvent → List Message
  | [] => []
  | WEvent.attempt m :: rest => m :: attemptsOf rest
  | _ :: rest => attemptsOf rest

/-! ### Channels

Go channels made by the two constructors: `make(chan Message, ChanSize)`
and `make(chan error, ChanSize)`.  A channel is a bounded FIFO; `send`
yields `none` when the buffer is full (the operation blocks), `recv`
yields `none` when the buffer is empty (the caller blocks while the
channel is open). -/

/-- A buffered channel: fixed capacity plus current FIFO contents. -/
structure Chan (α : Type) where
  capacity : Nat
  buffer : List α
deriving DecidableEq

/-- `make(chan α, cap)`: an empty channel of capacity `cap`. -/
def newChan (α : Type) (cap : Nat) : Chan α :=
  { capacity := cap, buffer := [] }

/-- Channel send: blocks (returns `none`) while the buffer is full. -/
def Chan.send {α : Type} (c : Chan α) (x : α) : Option (Chan α) :=
  if c.buffer.length < c.capacity then
    some { c with buffer := c.buffer ++ [x] }
  else none

/-- Channel receive: blocks (returns `none`) while the buffer is empty. -/
def Chan.recv {α : Type} (c : Chan α) : Option (α × Chan α) :=
  match c.buffer with
  | [] => none
  | x :: rest => some (x, { c with buffer := rest })

/-- An error value carried on an error channel (Go `chan error`). -/
inductive NetErr where
  | writeFailed (m : Message)
  | decodeFailed
deriving DecidableEq

/-- Go `ChannelFromWriter`: allocates the two buffered channels and starts
the `write` worker (modelled by `writeTrace`) over the sink `w`. -/
def ChannelFromWriter (w : List Nat) : Chan Message × Chan NetErr :=
  (newChan Message ChanSize, newChan NetErr ChanSize)

/-- Go `ChannelFromReader`: allocates the two buffered channels and starts
the `read` worker (modelled by `readTrace`) over the source `r`. -/
def ChannelFromReader (r : List Nat) : Chan Message × Chan NetErr :=
  (newChan Message ChanSize, newChan NetErr ChanSize)

/-! ### Behavior lemmas shared by the claims -/

theorem encodeMsg_ne_nil (m : Message) : encodeMsg m ≠ [] := by
  simp [encodeMsg]

theorem readTrace_encoded (msgs : List Message) (rest : List Nat) :
    readTrace (msgs.flatMap encodeMsg ++ rest) =
      msgs.map REvent.deliver ++ readTrace rest := by
  induction msgs with
  | nil => simp
  | cons m t ih =>
    have hsplit : (m :: t).flatMap encodeMsg ++ rest =
        encodeMsg m ++ (t.flatMap encodeMsg ++ rest) := by
      simp
    rw [hsplit, readTrace_some (decodeMsg_encodeMsg m _), ih]
    simp

theorem deliveredOf_append (a b : List REvent) :
    deliveredOf (a ++ b) = deliveredOf a ++ deliveredOf b := by
  induction a with
  | nil => rfl
  | cons e t ih => cases e <;> simp [deliveredOf, ih]

theorem deliveredOf_map (ms : List Message) :
    deliveredOf (ms.map REvent.deliver) = ms := by
  induction ms with
  | nil => rfl
  | cons m t ih => simp [deliveredOf, ih]

theorem attemptsOf_append (a b : List WEvent) :
    attemptsOf (a ++ b) = attemptsOf a ++ attemptsOf b := by
  induction a with
  | nil => rfl
  | cons e t ih => cases e <;> simp [attemptsOf, ih]

theorem writeTrace_output_noFail (msgs : List Message) :
    outputOf (writeTrace [] msgs) = msgs.flatMap encodeMsg := by
  induction msgs with
  | nil => rfl
  | cons m t ih => simp [writeTrace, outputOf, ih]

theorem writeTrace_errors_noFail (msgs : List Message) :
    errorsOf (writeTrace [] msgs) = [] := by
  induction msgs with
  | nil => rfl
  | cons m t ih => simp [writeTrace, errorsOf, ih]

theorem writeTrace_attempts (fails : List Bool) (msgs : List Message) :
    attemptsOf (writeTrace fails msgs) = msgs := by
  induction msgs generalizing fails with
  | nil => rfl
  | cons m t ih =>
    cases hf : fails.headD false <;>
      · rw [writeTrace, hf]
        simp [attemptsOf, ih]

theorem writeTrace_closeErr_last (fails : List Bool) (msgs : List Message) :
    ∃ pre, writeTrace fails msgs = pre ++ [WEvent.closeErr] ∧
      WEvent.closeErr ∉ pre := by
  induction msgs generalizing fails with
  | nil => exact ⟨[], rfl, by simp⟩
  | cons m t ih =>
    obtain ⟨pre, heq, hmem⟩ := ih fails.tail
    refine ⟨WEvent.attempt m ::
      (if fails.headD false then WEvent.emitErr m
       else WEvent.writeOut (encodeMsg m)) :: pre, ?_, ?_⟩
    · simp [writeTrace, heq]
    · cases hf : fails.headD false <;> simp [hf, hmem]

theorem write_read_delivered (msgs : List Message) :
    deliveredOf (readTrace (outputOf (writeTrace [] msgs))) = msgs := by
  rw [writeTrace_output_noFail]
  have h := readTrace_encoded msgs []
  rw [List.append_nil] at h
  rw [h, deliveredOf_append, deliveredOf_map, readTrace_nil]
  simp [deliveredOf]

/-- Sink-failure pattern: exactly the write of message number `j` fails. -/
def failAt (j : Nat) : List Bool :=
  List.replicate j false ++ [true]

theorem writeTrace_failAt (msgs : List Message) (j : Nat) (h : j < msgs.length) :
    errorsOf (writeTrace (failAt j) msgs) = [msgs[j]] ∧
    outputOf (writeTrace (failAt j) msgs) =
      (msgs.take j ++ msgs.drop (j + 1)).flatMap encodeMsg := by
  induction msgs generalizing j with
  | nil => simp at h
  | cons m t ih =>
    cases j with
    | zero =>
      have h0 : failAt 0 = [true] := rfl
      rw [h0, writeTrace]
      simp [errorsOf, outputOf, writeTrace_errors_noFail, writeTrace_output_noFail]
    | succ k =>
      have hk : k < t.length := by simpa using h
      obtain ⟨h1, h2⟩ := ih k hk
      have hfa : failAt (k + 1) = false :: failAt k := by
        simp [failAt, List.replicate_succ]
      rw [hfa, writeTrace]
      simp [errorsOf, outputOf, h1, h2]

theorem readTrace_shape (bs : List Nat) :
    ∃ (ms : List Message) (e : Bool), readTrace bs = ms.map REvent.deliver ++
      (cond e [REvent.emitErr] [] ++ [REvent.closeMsg, REvent.closeErr]) := by
  generalize hlen : bs.length = n
  induction n using Nat.strong_induction_on generalizing bs with
  | _ n ih =>
    match hdec : decodeMsg bs with
    | some (m, rest) =>
      have hlt : rest.length < n := hlen ▸ decodeMsg_length hdec
      obtain ⟨ms, e, hrec⟩ := ih rest.length hlt rest rfl
      exact ⟨m :: ms, e, by rw [readTrace_some hdec, hrec]; simp⟩
    | none =>
      cases bs with
      | nil => exact ⟨[], false, by rw [readTrace_nil]; simp⟩
      | cons b bs2 =>
        exact ⟨[], true, by rw [readTrace_bad (by simp) hdec]; simp⟩

theorem count_emitErr_map_deliver (ms : List Message) :
    (ms.map REvent.deliver).count REvent.emitErr = 0 := by
  induction ms with
  | nil => rfl
  | cons m t ih => simp [List.count_cons, ih]

/-! ### The claims -/

/-- C1: for every `Message` (any `Action`, any `Args`, including empty
`Args`), writing it through the encoding pipeline and decoding the
resulting byte stream yields a `Message` with identical `Action` and
`Args`. -/
theorem roundtrip_action_args (m : Message) :
    ∃ m2, deliveredOf (readTrace (outputOf (writeTrace [] [m]))) = [m2] ∧
      m2.Action = m.Action ∧ m2.Args = m.Args :=
  ⟨m, write_read_delivered [m], rfl, rfl⟩

/-- C1 witness at a concrete message. -/
theorem roundtrip_action_args_witness :
    ∃ m2, deliveredOf (readTrace (outputOf (writeTrace []
        [(⟨"regenerate apprc", ["app1"]⟩ : Message)]))) = [m2] ∧
      m2.Action = "regenerate apprc" ∧ m2.Args = ["app1"] :=
  roundtrip_action_args ⟨"regenerate apprc", ["app1"]⟩

/-- C2: any sequence of N messages sent through the encoder into a shared
stream read by the decoder, with no injected errors, is delivered as
exactly N messages in the same order. -/
theorem order_preservation (msgs : List Message) :
    deliveredOf (readTrace (outputOf (writeTrace [] msgs))) = msgs ∧
    (deliveredOf (readTrace (outputOf (writeTrace [] msgs)))).length =
      msgs.length :=
  ⟨write_read_delivered msgs, by rw [write_read_delivered msgs]⟩

/-- C3: on every run of the `write` worker (any failure pattern), the trace
ends with exactly one close of the error queue, placed after all queued
messages have been removed and attempted. -/
theorem write_closes_error_queue_once (fails : List Bool) (msgs : List Message) :
    ∃ pre, writeTrace fails msgs = pre ++ [WEvent.closeErr] ∧
      WEvent.closeErr ∉ pre ∧ attemptsOf pre = msgs := by
  obtain ⟨pre, heq, hmem⟩ := writeTrace_closeErr_last fails msgs
  refine ⟨pre, heq, hmem, ?_⟩
  have h := writeTrace_attempts fails msgs
  rw [heq, attemptsOf_append] at h
  simpa [attemptsOf] using h

/-- C4: a byte source holding exactly K valid records followed by clean
end-of-stream makes the decoder deliver exactly the K messages, emit no
error, and then close the message queue and the error queue. -/
theorem clean_eof_delivers_all (msgs : List Message) :
    readTrace (msgs.flatMap encodeMsg) =
      msgs.map REvent.deliver ++ [REvent.closeMsg, REvent.closeErr] ∧
    (readTrace (msgs.flatMap encodeMsg)).count REvent.emitErr = 0 := by
  have h := readTrace_encoded msgs []
  rw [List.append_nil] at h
  rw [h, readTrace_nil]
  refine ⟨rfl, ?_⟩
  rw [List.count_append, count_emitErr_map_deliver]
  rfl

/-- C5: a byte source holding K valid records followed by corrupted bytes
makes the decoder deliver exactly the K messages, emit exactly one error,
and close both queues; nothing past the corruption point is delivered. -/
theorem corruption_stops_decoder (msgs : List Message) (corrupt : List Nat)
    (hne : corrupt ≠ []) (hbad : decodeMsg corrupt = none) :
    readTrace (msgs.flatMap encodeMsg ++ corrupt) =
      msgs.map REvent.deliver ++
        [REvent.emitErr, REvent.closeMsg, REvent.closeErr] := by
  rw [readTrace_encoded, readTrace_bad hne hbad]

/-- C5 witness: one valid record, then a corrupt byte, then a further valid
record that must not be delivered. -/
theorem corruption_stops_decoder_witness :
    readTrace (([⟨"a", ["b"]⟩] : List Message).flatMap encodeMsg ++
        (0 :: encodeMsg ⟨"c", []⟩)) =
      ([⟨"a", ["b"]⟩] : List Message).map REvent.deliver ++
        [REvent.emitErr, REvent.closeMsg, REvent.closeErr] :=
  corruption_stops_decoder [⟨"a", ["b"]⟩] (0 :: encodeMsg ⟨"c", []⟩)
    (by simp) (by rfl)

/-- C6: when the sink fails on exactly the write of message `j`, the
worker queues exactly one error (for that message), still attempts every
message, and the sink receives every other message's encoding, in order. -/
theorem single_write_failure_continues (msgs : List Message) (j : Nat)
    (h : j < msgs.length) :
    errorsOf (writeTrace (failAt j) msgs) = [msgs[j]] ∧
    outputOf (writeTrace (failAt j) msgs) =
      (msgs.take j ++ msgs.drop (j + 1)).flatMap encodeMsg ∧
    attemptsOf (writeTrace (failAt j) msgs) = msgs := by
  obtain ⟨h1, h2⟩ := writeTrace_failAt msgs j h
  exact ⟨h1, h2, writeTrace_attempts _ _⟩

/-- C6 witness: the 2nd of 3 messages fails; the 1st and 3rd are written. -/
theorem single_write_failure_continues_witness :
    errorsOf (writeTrace (failAt 1)
        [⟨"a", []⟩, ⟨"b", ["x"]⟩, ⟨"c", []⟩]) = [⟨"b", ["x"]⟩] ∧
    outputOf (writeTrace (failAt 1)
        [⟨"a", []⟩, ⟨"b", ["x"]⟩, ⟨"c", []⟩]) =
      ([⟨"a", []⟩, ⟨"c", []⟩] : List Message).flatMap encodeMsg ∧
    attemptsOf (writeTrace (failAt 1)
        [⟨"a", []⟩, ⟨"b", ["x"]⟩, ⟨"c", []⟩]) =
      [⟨"a", []⟩, ⟨"b", ["x"]⟩, ⟨"c", []⟩] := by
  exact single_write_failure_continues _ 1 (by decide)

/-- C7: both constructors return a message queue and an error queue of
fixed capacity 32. -/
theorem constructor_channel_capacities (w r : List Nat) :
    (ChannelFromWriter w).1.capacity = 32 ∧
    (ChannelFromWriter w).2.capacity = 32 ∧
    (ChannelFromReader r).1.capacity = 32 ∧
    (ChannelFromReader r).2.capacity = 32 :=
  ⟨rfl, rfl, rfl, rfl⟩

/-- C8: on any queue of the constructors' capacity (`ChanSize`) holding as
many items as its capacity, a send blocks, and completes after one
removal. -/
theorem full_queue_send_blocks {α : Type} (c : Chan α) (x : α)
    (hcap : c.capacity = ChanSize) (hfull : c.buffer.length = c.capacity) :
    c.send x = none ∧
      ∃ y c2, c.recv = some (y, c2) ∧ (c2.send x).isSome = true := by
  constructor
  · simp [Chan.send, hfull]
  · cases hb : c.buffer with
    | nil =>
      exfalso
      rw [hb] at hfull
      rw [hcap] at hfull
      simp [ChanSize] at hfull
    | cons z rest =>
      refine ⟨z, { c with buffer := rest }, ?_, ?_⟩
      · simp [Chan.recv, hb]
      · have hlen : rest.length + 1 = c.capacity := by
          rw [← hfull, hb]
          rfl
        simp only [Chan.send]
        rw [if_pos (by omega)]
        rfl

/-- C8 witness: a concrete full message queue of capacity `ChanSize`. -/
theorem full_queue_send_blocks_witness :
    ({ capacity := ChanSize,
       buffer := List.replicate 32 (⟨"a", []⟩ : Message) } : Chan Message).send
        ⟨"b", []⟩ = none ∧
      ∃ y c2,
        ({ capacity := ChanSize,
           buffer := List.replicate 32 (⟨"a", []⟩ : Message) } :
            Chan Message).recv = some (y, c2) ∧
        (c2.send ⟨"b", []⟩).isSome = true := by
  exact full_queue_send_blocks _ _ rfl (by decide)

/-- C9: on every byte source the decoder emits at most one error over its
whole lifetime: an optional single error just before it closes both
queues, after which it never delivers again. -/
theorem read_at_most_one_error (bs : List Nat) :
    (readTrace bs).count REvent.emitErr ≤ 1 ∧
    ∃ (ms : List Message) (e : Bool), readTrace bs = ms.map REvent.deliver ++
      (cond e [REvent.emitErr] [] ++ [REvent.closeMsg, REvent.closeErr]) := by
  obtain ⟨ms, e, hshape⟩ := readTrace_shape bs
  refine ⟨?_, ms, e, hshape⟩
  rw [hshape, List.count_append, count_emitErr_map_deliver]
  cases e <;> decide

/-- C10: the encoding worker uses a fresh encoder per message, so the byte
stream of a sequence equals the concatenation of the byte streams of the
messages encoded alone. -/
theorem fresh_encoder_output_concat (msgs : List Message) :
    outputOf (writeTrace [] msgs) =
      (msgs.map fun m => outputOf (writeTrace [] [m])).flatten := by
  rw [writeTrace_output_noFail, List.flatMap_def]
  congr 1
  apply List.map_congr_left
  intro m _
  rw [writeTrace_output_noFail]
  simp

end Netqueue
